import Mathlib

/-!
# Verification of the quantum-chord-display core pipeline

Shallow embedding of `src/main.py`: the circular audio buffer
(`AudioRingBuffer.push` / `read_last`), the chroma extractor
(`chroma_from_audio`), the chord matcher (`best_chord`), and the
stability/hysteresis logic of the main loop.  Samples are modelled as exact
rationals (the buffer and matcher claims are value-agnostic) and the spectral
pipeline over the reals (exact arithmetic).
-/

namespace QCD

/-! ## AudioRingBuffer (src/main.py lines 71-113)

`buf` is the fixed array of `size` float32 slots (all zero at construction,
`size = int(sr * seconds)`), `write_idx` the wrapping write cursor and
`filled` the flag set by `push`.  numpy slice assignment `buf[a:b] = x`
succeeds when `len(x) = b - a`, broadcasts a length-1 source across the
target, and raises `ValueError` otherwise; `npAssign` returns `none` exactly
in the raising case. -/

structure RingBuf where
  size : ℕ
  buf : List ℚ
  write_idx : ℕ
  filled : Bool
  deriving DecidableEq, Repr

def npAssign (l : List ℚ) (a b : ℕ) (x : List ℚ) : Option (List ℚ) :=
  if x.length = b - a then some (l.take a ++ x ++ l.drop b)
  else if x.length = 1 then some (l.take a ++ List.replicate (b - a) x.headI ++ l.drop b)
  else none

/-- `AudioRingBuffer.__init__`: an all-zero buffer, cursor 0, not filled. -/
def initBuffer (size : ℕ) : RingBuf :=
  ⟨size, List.replicate size 0, 0, false⟩

/-- `AudioRingBuffer.push` (lines 81-100).  Empty block: no-op.  Otherwise the
block is written at the cursor, wrapping with the two slice assignments of the
source; `filled` is set and the cursor advanced modulo `size`.  `none` models
the numpy broadcast `ValueError`. -/
def push (st : RingBuf) (x : List ℚ) : Option RingBuf :=
  if x.length = 0 then some st
  else
    let idx := st.write_idx
    let e := idx + x.length
    if e ≤ st.size then
      (npAssign st.buf idx e x).map fun b => ⟨st.size, b, e % st.size, true⟩
    else
      let first := st.size - idx
      (npAssign st.buf idx st.size (x.take first)).bind fun b1 =>
        (npAssign b1 0 (e % st.size) (x.drop first)).map fun b2 =>
          ⟨st.size, b2, e % st.size, true⟩

/-- `AudioRingBuffer.read_last` (lines 102-113).  `n` is clamped to the
capacity; `(write_idx - n) % size` is Python modulo on a possibly negative
dividend, rendered here as `(write_idx + size - n) % size`. -/
def read_last (st : RingBuf) (n0 : ℕ) : List ℚ :=
  let n := min n0 st.size
  if st.filled = false ∧ st.write_idx < n then
    st.buf.take st.write_idx
  else
    let start := (st.write_idx + st.size - n) % st.size
    if start < st.write_idx then
      (st.buf.drop start).take (st.write_idx - start)
    else
      st.buf.drop start ++ st.buf.take st.write_idx

/-- The main loop's producer side as a sequence of pushes. -/
def pushAll (st : RingBuf) (bs : List (List ℚ)) : Option RingBuf :=
  bs.foldl (fun acc b => acc.bind fun s => push s b) (some st)

/-! ### Ring buffer invariant

After pushing blocks whose concatenation is `data` into a fresh buffer of
positive capacity `size` (each block no longer than `size`), the cursor is
`data.length % size` and rotating the array at the cursor yields the last
`size` samples of `zeros ++ data`. -/

def RingInv (size : ℕ) (data : List ℚ) (st : RingBuf) : Prop :=
  st.size = size ∧ st.buf.length = size ∧
  st.write_idx = data.length % size ∧
  st.filled = decide (0 < data.length) ∧
  st.buf.drop st.write_idx ++ st.buf.take st.write_idx =
    (List.replicate size 0 ++ data).drop data.length

theorem ringInv_init (size : ℕ) : RingInv size [] (initBuffer size) := by
  refine ⟨rfl, by simp [initBuffer], by simp [initBuffer], by simp [initBuffer], ?_⟩
  simp [initBuffer]

theorem ringInv_push (size : ℕ) (hs : 0 < size) (data : List ℚ) (st : RingBuf)
    (hinv : RingInv size data st) (x : List ℚ) (hx : x.length ≤ size) :
    ∃ st', push st x = some st' ∧ RingInv size (data ++ x) st' := by
  obtain ⟨hsz, hlen, hidx, hfill, hrot⟩ := hinv
  by_cases hx0 : x.length = 0
  · refine ⟨st, by simp [push, hx0], hsz, hlen, ?_, ?_, ?_⟩
    · simpa [List.length_eq_zero.mp hx0] using hidx
    · simpa [List.length_eq_zero.mp hx0] using hfill
    · simpa [List.length_eq_zero.mp hx0] using hrot
  · have hxpos : 0 < x.length := Nat.pos_of_ne_zero hx0
    have hidxlt : st.write_idx < size := by
      rw [hidx]; exact Nat.mod_lt _ hs
    set idx := st.write_idx with hidxdef
    set n := x.length with hndef
    have hLmod : idx = data.length % size := hidx
    -- the rotated buffer equals the retained suffix
    have hrotlen : (st.buf.drop idx).length = size - idx := by
      simp [hlen]
    by_cases hle : idx + n ≤ size
    · -- no wraparound: single slice assignment
      have hassign : npAssign st.buf idx (idx + n) x =
          some (st.buf.take idx ++ x ++ st.buf.drop (idx + n)) := by
        unfold npAssign
        rw [if_pos (by omega)]
      refine ⟨⟨size, st.buf.take idx ++ x ++ st.buf.drop (idx + n),
        (idx + n) % size, true⟩, ?_, rfl, ?_, ?_, ?_, ?_⟩
      · unfold push
        rw [if_neg hx0]
        simp only [← hndef, ← hidxdef]
        rw [if_pos (by simpa [hsz] using hle)]
        rw [hsz, hassign]
        rfl
      · simp [hlen]; omega
      · simp only [List.length_append]
        rw [hLmod, Nat.mod_add_mod]
      · simp [List.length_append]; omega
      · -- content equation
        have hgoal :
            (st.buf.take idx ++ x ++ st.buf.drop (idx + n)).drop ((idx + n) % size) ++
            (st.buf.take idx ++ x ++ st.buf.drop (idx + n)).take ((idx + n) % size) =
            (List.replicate size 0 ++ (data ++ x)).drop (data.length + n) := by
          have hR : (List.replicate size 0 ++ (data ++ x)).drop (data.length + n) =
              ((List.replicate size 0 ++ data).drop data.length).drop n ++ x := by
            rw [show List.replicate size 0 ++ (data ++ x) =
                (List.replicate size 0 ++ data) ++ x by simp,
              List.drop_append_eq_append_drop, List.drop_drop]
            have h1 : data.length + n - (List.replicate size 0 ++ data).length = 0 := by
              simp; omega
            rw [h1, List.drop_zero]
          rw [hR, ← hrot]
          have hdropsplit :
              (st.buf.drop idx ++ st.buf.take idx).drop n =
              st.buf.drop (idx + n) ++ (st.buf.take idx).drop (n - (size - idx)) := by
            rw [List.drop_append_eq_append_drop, List.drop_drop, hrotlen]
          rw [hdropsplit]
          have hz : n - (size - idx) = 0 := by omega
          rw [hz, List.drop_zero]
          by_cases heq : idx + n = size
          · have hmod : (idx + n) % size = 0 := by rw [heq, Nat.mod_self]
            rw [hmod, List.drop_zero, List.take_zero, List.append_nil]
            have hdropnil : st.buf.drop (idx + n) = [] := by
              apply List.drop_eq_nil_of_le
              omega
            rw [hdropnil]; simp
          · have hlt : idx + n < size := by omega
            have hmod : (idx + n) % size = idx + n := Nat.mod_eq_of_lt hlt
            rw [hmod]
            have htk : (st.buf.take idx ++ x).length = idx + n := by
              simp [List.length_take, hlen]; omega
            rw [show st.buf.take idx ++ x ++ st.buf.drop (idx + n) =
                (st.buf.take idx ++ x) ++ st.buf.drop (idx + n) by simp,
              List.drop_append_of_le_length (by omega : idx + n ≤ (st.buf.take idx ++ x).length),
              List.take_append_of_le_length (by omega : idx + n ≤ (st.buf.take idx ++ x).length)]
            rw [List.drop_eq_nil_of_le (le_of_eq htk), List.take_of_length_le (le_of_eq htk)]
            simp
        simpa [List.length_append] using hgoal
    · -- wraparound: two slice assignments
      have hfirst : size - idx < n := by omega
      have hs1 : (x.take (size - idx)).length = size - idx := by
        simp; omega
      have hassign1 : npAssign st.buf idx size (x.take (size - idx)) =
          some (st.buf.take idx ++ x.take (size - idx)) := by
        unfold npAssign
        rw [if_pos (by omega)]
        have : st.buf.drop size = [] := List.drop_eq_nil_of_le (by omega)
        rw [this, List.append_nil]
      set s := idx + n - size with hsdef
      have hslt : s < size := by omega
      have hmod : (idx + n) % size = s := by
        have : idx + n = size + s := by omega
        rw [this, Nat.add_mod_left, Nat.mod_eq_of_lt hslt]
      have hb1len : (st.buf.take idx ++ x.take (size - idx)).length = size := by
        simp [hlen]; omega
      have hs2 : (x.drop (size - idx)).length = s := by
        simp; omega
      have hassign2 : npAssign (st.buf.take idx ++ x.take (size - idx)) 0 s (x.drop (size - idx)) =
          some (x.drop (size - idx) ++ (st.buf.take idx ++ x.take (size - idx)).drop s) := by
        unfold npAssign
        rw [if_pos (by omega)]
        simp
      refine ⟨⟨size, x.drop (size - idx) ++ (st.buf.take idx ++ x.take (size - idx)).drop s,
        s, true⟩, ?_, rfl, ?_, ?_, ?_, ?_⟩
      · unfold push
        rw [if_neg hx0]
        simp only [← hndef, ← hidxdef]
        rw [if_neg (by rw [hsz]; omega)]
        rw [hsz, hassign1]
        simp only [Option.some_bind]
        rw [hmod, hassign2]
        rfl
      · rw [List.length_append, hs2, List.length_drop, hb1len]
        omega
      · show s = (data ++ x).length % size
        rw [List.length_append, ← Nat.mod_add_mod, ← hLmod, ← hndef, hmod]
      · simp [List.length_append]; omega
      · -- content equation for the wrapped write
        have hb2 : (x.drop (size - idx) ++ (st.buf.take idx ++ x.take (size - idx)).drop s).drop s =
            (st.buf.take idx ++ x.take (size - idx)).drop s := by
          rw [List.drop_append_eq_append_drop, hs2]
          simp
          omega
        have hb2t : (x.drop (size - idx) ++ (st.buf.take idx ++ x.take (size - idx)).drop s).take s =
            x.drop (size - idx) := by
          rw [List.take_append_of_le_length (le_of_eq hs2.symm)]
          exact List.take_of_length_le (le_of_eq hs2)
        have hR : (List.replicate size 0 ++ (data ++ x)).drop (data.length + n) =
            ((List.replicate size 0 ++ data).drop data.length).drop n ++ x := by
          rw [show List.replicate size 0 ++ (data ++ x) =
              (List.replicate size 0 ++ data) ++ x by simp,
            List.drop_append_eq_append_drop, List.drop_drop]
          have h1 : data.length + n - (List.replicate size 0 ++ data).length = 0 := by
            simp; omega
          rw [h1, List.drop_zero]
        have hdropsplit :
            (st.buf.drop idx ++ st.buf.take idx).drop n =
            (st.buf.take idx).drop s := by
          rw [List.drop_append_eq_append_drop, hrotlen]
          have : (st.buf.drop idx).drop n = [] := by
            apply List.drop_eq_nil_of_le
            simp [hlen]; omega
          rw [this, List.nil_append]
          congr 1
          omega
        have hb1split : (st.buf.take idx ++ x.take (size - idx)).drop s =
            (st.buf.take idx).drop s ++ x.take (size - idx) := by
          rw [List.drop_append_eq_append_drop]
          have hidxle : idx ≤ st.buf.length := by omega
          have : s - (st.buf.take idx).length = 0 := by
            simp [List.length_take, hlen]; omega
          rw [this, List.drop_zero]
        show (x.drop (size - idx) ++ (st.buf.take idx ++ x.take (size - idx)).drop s).drop s ++
            (x.drop (size - idx) ++ (st.buf.take idx ++ x.take (size - idx)).drop s).take s =
            (List.replicate size 0 ++ (data ++ x)).drop ((data ++ x).length)
        rw [hb2, hb2t, show (data ++ x).length = data.length + n by simp [hndef], hR, ← hrot,
          hdropsplit, hb1split]
        simp

theorem ringInv_pushAll (size : ℕ) (hs : 0 < size) (data : List ℚ) (st : RingBuf)
    (hinv : RingInv size data st) (bs : List (List ℚ)) (hbs : ∀ b ∈ bs, b.length ≤ size) :
    ∃ st', pushAll st bs = some st' ∧ RingInv size (data ++ bs.flatten) st' := by
  induction bs generalizing data st with
  | nil => exact ⟨st, rfl, by simpa using hinv⟩
  | cons b rest ih =>
    obtain ⟨st1, hpush, hinv1⟩ :=
      ringInv_push size hs data st hinv b (hbs b (by simp))
    obtain ⟨st', hrest, hinv'⟩ :=
      ih (data ++ b) st1 hinv1 (fun c hc => hbs c (by simp [hc]))
    refine ⟨st', ?_, by simpa using hinv'⟩
    simpa [pushAll, hpush] using hrest

theorem ringInv_read (size : ℕ) (hs : 0 < size) (data : List ℚ) (st : RingBuf)
    (hinv : RingInv size data st) (hfull : size ≤ data.length) :
    read_last st size = data.drop (data.length - size) := by
  obtain ⟨hsz, hlen, hidx, hfill, hrot⟩ := hinv
  have hfilled : st.filled = true := by
    rw [hfill]; simp; omega
  unfold read_last
  rw [hsz]
  simp only [min_self, hfilled]
  rw [if_neg (by simp)]
  have hstart : (st.write_idx + size - size) % size = st.write_idx := by
    rw [Nat.add_sub_cancel]
    exact Nat.mod_eq_of_lt (by rw [hidx]; exact Nat.mod_lt _ hs)
  rw [hstart, if_neg (lt_irrefl _)]
  rw [hrot, List.drop_append_eq_append_drop]
  have h1 : (List.replicate size (0 : ℚ)).drop data.length = [] := by
    apply List.drop_eq_nil_of_le
    simpa using hfull
  rw [h1, List.nil_append]
  congr 1
  simp

/-! ### Claim-facing ring buffer theorems -/

/-- C3: the spec's short-read contract fails on the code.  `push` sets
`filled = True` after any non-empty push (line 99 runs unconditionally), so a
fresh capacity-5 buffer holding the single sample `1` answers `read_last 3`
with the zero-padded `[0, 0, 1]` instead of the claimed `[1]`. -/
theorem read_last_zero_padded_before_fill :
    (push (initBuffer 5) [1]).map (fun st => read_last st 3) = some [0, 0, 1] ∧
    (push (initBuffer 5) [1]).map (fun st => read_last st 3) ≠ some [1] := by
  constructor
  · decide
  · decide

/-- C4 counterexample: on a fresh capacity-1 buffer, pushing a 3-sample block
makes the second slice assignment `buf[:end % size] = x[first:]` copy two
samples into a length-0 slice, which numpy rejects (`ValueError`), modelled
here as `none`. -/
theorem push_raises_on_long_block :
    push (initBuffer 1) [0, 0, 0] = none := by
  decide

/-- C4 (amended): `push` returns normally whenever
`write_idx + len(block) < 2 * size` — in particular for every block no longer
than the capacity; `read_last` is total by construction. -/
theorem push_isSome_of_small_block (st : RingBuf) (x : List ℚ)
    (hidx : st.write_idx < st.size)
    (hlen : st.write_idx + x.length < 2 * st.size) :
    (push st x).isSome := by
  by_cases hx0 : x.length = 0
  · simp [push, hx0]
  · unfold push
    rw [if_neg hx0]
    by_cases hle : st.write_idx + x.length ≤ st.size
    · rw [if_pos hle]
      unfold npAssign
      rw [if_pos (by omega)]
      simp
    · rw [if_neg hle]
      have h1 : npAssign st.buf st.write_idx st.size (x.take (st.size - st.write_idx)) =
          some (st.buf.take st.write_idx ++ x.take (st.size - st.write_idx) ++ st.buf.drop st.size) := by
        unfold npAssign
        rw [if_pos (by simp; omega)]
      simp only [h1, Option.some_bind]
      have hmod : (st.write_idx + x.length) % st.size = st.write_idx + x.length - st.size := by
        have h2 : st.write_idx + x.length = st.size + (st.write_idx + x.length - st.size) := by omega
        rw [h2, Nat.add_mod_left, Nat.mod_eq_of_lt (by omega)]
        omega
      have h3 : npAssign (st.buf.take st.write_idx ++ x.take (st.size - st.write_idx) ++ st.buf.drop st.size)
          0 ((st.write_idx + x.length) % st.size) (x.drop (st.size - st.write_idx)) =
          some ((st.buf.take st.write_idx ++ x.take (st.size - st.write_idx) ++ st.buf.drop st.size).take 0 ++
            x.drop (st.size - st.write_idx) ++
            (st.buf.take st.write_idx ++ x.take (st.size - st.write_idx) ++ st.buf.drop st.size).drop
              ((st.write_idx + x.length) % st.size)) := by
        unfold npAssign
        rw [if_pos (by rw [hmod]; simp; omega)]
      simp only [h3]
      simp

/-- C4 witness: a fresh capacity-2 buffer accepts a 3-sample block. -/
theorem push_isSome_of_small_block_witness :
    (initBuffer 2).write_idx < (initBuffer 2).size ∧
    (initBuffer 2).write_idx + ([5, 4, 3] : List ℚ).length < 2 * (initBuffer 2).size ∧
    (push (initBuffer 2) [5, 4, 3]).isSome :=
  ⟨by decide, by decide, push_isSome_of_small_block (initBuffer 2) [5, 4, 3] (by decide) (by decide)⟩

/-- C5: pushing blocks each no longer than the capacity, with total length at
least the capacity, then reading the full capacity returns exactly the most
recent `size` samples of the concatenated data, oldest-first. -/
theorem read_last_full_returns_recent (size : ℕ) (bs : List (List ℚ))
    (hs : 0 < size) (hb : ∀ b ∈ bs, b.length ≤ size)
    (htot : size ≤ bs.flatten.length) :
    ∃ st, pushAll (initBuffer size) bs = some st ∧
      read_last st size = bs.flatten.drop (bs.flatten.length - size) := by
  obtain ⟨st, hp, hinv⟩ :=
    ringInv_pushAll size hs [] (initBuffer size) (ringInv_init size) bs hb
  rw [List.nil_append] at hinv
  exact ⟨st, hp, ringInv_read size hs bs.flatten st hinv htot⟩

/-- C5 witness: capacity 2, pushes `[1,2]` then `[3]`, read back `[2,3]`. -/
theorem read_last_full_returns_recent_witness :
    ∃ st, pushAll (initBuffer 2) [[1, 2], [3]] = some st ∧ read_last st 2 = [2, 3] := by
  obtain ⟨st, h1, h2⟩ :=
    read_last_full_returns_recent 2 [[1, 2], [3]] (by decide) (by decide) (by decide)
  exact ⟨st, h1, by simpa using h2⟩

/-- C6: pushing a non-empty block shorter than the capacity into a fresh
buffer and immediately reading back its length round-trips the block. -/
theorem push_read_roundtrip (size : ℕ) (x : List ℚ)
    (h0 : 0 < x.length) (hlt : x.length < size) :
    ∃ st, push (initBuffer size) x = some st ∧ read_last st x.length = x := by
  obtain ⟨st, hp, hinv⟩ :=
    ringInv_push size (by omega) [] (initBuffer size) (ringInv_init size) x (le_of_lt hlt)
  rw [List.nil_append] at hinv
  obtain ⟨hsz, hlen, hidx, hfill, hrot⟩ := hinv
  refine ⟨st, hp, ?_⟩
  have hidx' : st.write_idx = x.length := by
    rw [hidx]; exact Nat.mod_eq_of_lt hlt
  have hfilled : st.filled = true := by
    rw [hfill]; simp [h0]
  unfold read_last
  rw [hsz, hidx', hfilled]
  rw [min_eq_left (le_of_lt hlt)]
  rw [if_neg (by simp)]
  have hstart : (x.length + size - x.length) % size = 0 := by
    rw [Nat.add_sub_cancel_left]
    exact Nat.mod_self size
  rw [hstart, if_pos h0]
  simp only [List.drop_zero, Nat.sub_zero]
  -- extract `take x.length` from the rotation equation
  have hsplit : (List.replicate size (0 : ℚ) ++ x).drop x.length =
      (List.replicate size (0 : ℚ)).drop x.length ++ x := by
    rw [List.drop_append_eq_append_drop]
    rw [show x.length - (List.replicate size (0 : ℚ)).length = 0 by simp; omega,
      List.drop_zero]
  rw [hidx', hsplit] at hrot
  exact List.append_inj_right hrot (by simp [hlen])

/-- C6 witness: capacity 3, block `[1,2]`. -/
theorem push_read_roundtrip_witness :
    ∃ st, push (initBuffer 3) [1, 2] = some st ∧
      read_last st ([1, 2] : List ℚ).length = [1, 2] :=
  push_read_roundtrip 3 [1, 2] (by decide) (by decide)

/-! ## Chord templates and best_chord (src/main.py lines 44-61, 156-176)

The template bank is built for `root = 0..11`, major then minor, in a dict
that preserves insertion order; `best_chord` clamps the chroma at zero,
normalizes it to sum 1 when the sum is positive, does the same to each
template, and keeps the strictly best dot product, starting from the sentinel
`("—", 0.0)`.  The matcher is polymorphic in the (ordered) field of scalars
so the same definition can be evaluated at `ℚ` and reasoned about at `ℝ`. -/

def NOTE_NAMES : List String :=
  ["C", "C#", "D"] ++ ["D#", "E", "F"] ++ ["F#", "G", "G#"] ++ ["A", "A#", "B"]

/-- The 12-slot binary vector with ones at `root`, `(root+o1) % 12`,
`(root+o2) % 12` — the loop body building `maj` and `minr`. -/
def triadVec (K : Type) [LinearOrderedField K] (root o1 o2 : ℕ) : List K :=
  (List.range 12).map fun i =>
    if i = root ∨ i = (root + o1) % 12 ∨ i = (root + o2) % 12 then 1 else 0

/-- Major template: offsets 0, 4, 7. -/
def majVec (K : Type) [LinearOrderedField K] (root : ℕ) : List K :=
  triadVec K root 4 7

/-- Minor template: offsets 0, 3, 7. -/
def minVec (K : Type) [LinearOrderedField K] (root : ℕ) : List K :=
  triadVec K root 3 7

/-- `CHORD_TEMPLATES` in iteration order: for each root, major then minor. -/
def chordTemplates (K : Type) [LinearOrderedField K] : List (String × List K) :=
  ((List.range 12).map fun root =>
    [(NOTE_NAMES.getD root "", majVec K root),
     (NOTE_NAMES.getD root "" ++ "m", minVec K root)]).flatten

/-- `np.maximum(v, 0)`. -/
def clampNonneg {K : Type} [LinearOrderedField K] (v : List K) : List K :=
  v.map fun a => max a 0

/-- `s = np.sum(v); if s > 0: v = v / s`. -/
def normalizeSum {K : Type} [LinearOrderedField K] (v : List K) : List K :=
  if 0 < v.sum then v.map fun a => a / v.sum else v

/-- `np.dot` on equal-length 1-d arrays. -/
def listDot {K : Type} [LinearOrderedField K] (a b : List K) : K :=
  ((a.zip b).map fun p => p.1 * p.2).sum

/-- One iteration of the `best_chord` loop over a `(name, template)` pair. -/
def chordStep {K : Type} [LinearOrderedField K] (c : List K)
    (best : String × K) (nt : String × List K) : String × K :=
  if best.2 < listDot c (normalizeSum (clampNonneg nt.2)) then
    (nt.1, listDot c (normalizeSum (clampNonneg nt.2)))
  else best

/-- `best_chord` (lines 156-176). -/
def bestChord {K : Type} [LinearOrderedField K] (chroma : List K) : String × K :=
  (chordTemplates K).foldl (chordStep (normalizeSum (clampNonneg chroma))) ("—", 0)

/-- The confidence threshold of the main loop (lines 293-294,
`CONF_MIN = 0.55`): a result below threshold surfaces the sentinel label. -/
def thresholdLabel {K : Type} [LinearOrderedField K] (r : String × K) : String :=
  if r.2 < 11 / 20 then "—" else r.1

/-! ### Helper lemmas for the 1/3 confidence bound -/

theorem sum_map_div {K : Type} [LinearOrderedField K] (l : List K) (s : K) :
    (l.map fun a => a / s).sum = l.sum / s := by
  induction l with
  | nil => simp
  | cons x xs ih => simp [ih, add_div]

theorem sum_map_range {M : Type} [AddCommMonoid M] (f : ℕ → M) (n : ℕ) :
    ∑ i ∈ Finset.range n, f i = ((List.range n).map f).sum := by
  induction n with
  | zero => rfl
  | succ k ih =>
    rw [Finset.sum_range_succ, ih, List.range_succ, List.map_append, List.sum_append]
    simp

theorem clampNonneg_nonneg {K : Type} [LinearOrderedField K] (v : List K) :
    ∀ a ∈ clampNonneg v, 0 ≤ a := by
  intro a ha
  simp only [clampNonneg, List.mem_map] at ha
  obtain ⟨b, _, rfl⟩ := ha
  exact le_max_right b 0

theorem normalizeSum_nonneg {K : Type} [LinearOrderedField K] (v : List K)
    (hv : ∀ a ∈ v, 0 ≤ a) : ∀ a ∈ normalizeSum v, 0 ≤ a := by
  intro a ha
  unfold normalizeSum at ha
  split at ha
  · next hpos =>
    simp only [List.mem_map] at ha
    obtain ⟨b, hb, rfl⟩ := ha
    exact div_nonneg (hv b hb) (le_of_lt hpos)
  · exact hv a ha

theorem normalizeSum_sum_le_one {K : Type} [LinearOrderedField K] (v : List K)
    (hv : ∀ a ∈ v, 0 ≤ a) : (normalizeSum v).sum ≤ 1 := by
  unfold normalizeSum
  split
  · next hpos =>
    rw [sum_map_div, div_self (ne_of_gt hpos)]
  · next hpos =>
    have h0 : (0 : K) ≤ v.sum := List.sum_nonneg hv
    have h1 : v.sum ≤ 0 := not_lt.mp hpos
    linarith

theorem listDot_le_third {K : Type} [LinearOrderedField K] :
    ∀ (a b : List K), (∀ x ∈ a, 0 ≤ x) → (∀ x ∈ b, 0 ≤ x ∧ x ≤ 1 / 3) →
      listDot a b ≤ 1 / 3 * a.sum := by
  intro a
  induction a with
  | nil => intro b _ _; simp [listDot]
  | cons x xs ih =>
    intro b ha hb
    cases b with
    | nil =>
      have hs : (0 : K) ≤ (x :: xs).sum := List.sum_nonneg ha
      simpa [listDot] using by positivity
    | cons y ys =>
      have hx : 0 ≤ x := ha x (by simp)
      have hy := hb y (by simp)
      have htail := ih ys (fun z hz => ha z (by simp [hz]))
        (fun z hz => hb z (by simp [hz]))
      have hxy : x * y ≤ x * (1 / 3) := mul_le_mul_of_nonneg_left hy.2 hx
      have hstep : listDot (x :: xs) (y :: ys) = x * y + listDot xs ys := by
        simp [listDot]
      rw [hstep, List.sum_cons]
      nlinarith [htail, hxy]

theorem chordStep_fold_le {K : Type} [LinearOrderedField K] (c : List K) (B : K) :
    ∀ (l : List (String × List K)) (init : String × K), init.2 ≤ B →
      (∀ nt ∈ l, listDot c (normalizeSum (clampNonneg nt.2)) ≤ B) →
      (l.foldl (chordStep c) init).2 ≤ B := by
  intro l
  induction l with
  | nil => intro init h0 _; simpa using h0
  | cons nt rest ih =>
    intro init h0 hl
    simp only [List.foldl_cons]
    apply ih
    · unfold chordStep
      split
      · exact hl nt (by simp)
      · exact h0
    · intro p hp
      exact hl p (by simp [hp])

theorem triadVec_entries {K : Type} [LinearOrderedField K] (root o1 o2 : ℕ) :
    ∀ a ∈ triadVec K root o1 o2, a = 0 ∨ a = 1 := by
  intro a ha
  simp only [triadVec, List.mem_map] at ha
  obtain ⟨i, _, rfl⟩ := ha
  split
  · right; rfl
  · left; rfl

theorem triadVec_sum {K : Type} [LinearOrderedField K] (root o1 o2 : ℕ)
    (hroot : root < 12)
    (h1 : root ≠ (root + o1) % 12) (h2 : root ≠ (root + o2) % 12)
    (h3 : (root + o1) % 12 ≠ (root + o2) % 12) :
    (triadVec K root o1 o2).sum = 3 := by
  unfold triadVec
  rw [← sum_map_range]
  rw [Finset.sum_boole]
  have hfilter : (Finset.range 12).filter
      (fun i => i = root ∨ i = (root + o1) % 12 ∨ i = (root + o2) % 12) =
      {root, (root + o1) % 12, (root + o2) % 12} := by
    ext i
    simp only [Finset.mem_filter, Finset.mem_range, Finset.mem_insert, Finset.mem_singleton]
    constructor
    · rintro ⟨_, h⟩; exact h
    · rintro (rfl | rfl | rfl)
      · exact ⟨hroot, Or.inl rfl⟩
      · exact ⟨Nat.mod_lt _ (by norm_num), Or.inr (Or.inl rfl)⟩
      · exact ⟨Nat.mod_lt _ (by norm_num), Or.inr (Or.inr rfl)⟩
  rw [hfilter]
  rw [Finset.card_insert_of_not_mem (by simp [h1, h2]),
    Finset.card_insert_of_not_mem (by simp [h3]), Finset.card_singleton]
  norm_num

theorem clampNonneg_of_nonneg {K : Type} [LinearOrderedField K] :
    ∀ (v : List K), (∀ a ∈ v, 0 ≤ a) → clampNonneg v = v := by
  intro v
  induction v with
  | nil => intro _; rfl
  | cons x xs ih =>
    intro hv
    have htail := ih fun a ha => hv a (by simp [ha])
    simp only [clampNonneg, List.map_cons]
    rw [max_eq_left (hv x (by simp))]
    simp only [clampNonneg] at htail
    rw [htail]

theorem template_normalized_le_third {K : Type} [LinearOrderedField K]
    (root o1 o2 : ℕ) (hroot : root < 12)
    (h1 : root ≠ (root + o1) % 12) (h2 : root ≠ (root + o2) % 12)
    (h3 : (root + o1) % 12 ≠ (root + o2) % 12) :
    ∀ a ∈ normalizeSum (clampNonneg (triadVec K root o1 o2)), 0 ≤ a ∧ a ≤ 1 / 3 := by
  have hent := triadVec_entries (K := K) root o1 o2
  have hnn : ∀ a ∈ triadVec K root o1 o2, 0 ≤ a := by
    intro a ha
    rcases hent a ha with rfl | rfl
    · exact le_refl 0
    · exact zero_le_one
  rw [clampNonneg_of_nonneg _ hnn]
  have hsum : (triadVec K root o1 o2).sum = 3 := triadVec_sum root o1 o2 hroot h1 h2 h3
  intro a ha
  unfold normalizeSum at ha
  rw [hsum] at ha
  rw [if_pos (by norm_num : (0 : K) < 3)] at ha
  simp only [List.mem_map] at ha
  obtain ⟨b, hb, rfl⟩ := ha
  rcases hent b hb with rfl | rfl
  · norm_num
  · norm_num

/-- Every entry of every normalized template lies in `[0, 1/3]`. -/
theorem chordTemplates_normalized_le_third {K : Type} [LinearOrderedField K] :
    ∀ nt ∈ chordTemplates K, ∀ a ∈ normalizeSum (clampNonneg nt.2), 0 ≤ a ∧ a ≤ 1 / 3 := by
  have hdist : ∀ root < 12,
      (root ≠ (root + 4) % 12 ∧ root ≠ (root + 7) % 12 ∧ (root + 4) % 12 ≠ (root + 7) % 12) ∧
      (root ≠ (root + 3) % 12 ∧ root ≠ (root + 7) % 12 ∧ (root + 3) % 12 ≠ (root + 7) % 12) := by
    decide
  intro nt hnt
  simp only [chordTemplates, List.mem_flatten, List.mem_map] at hnt
  obtain ⟨l, ⟨root, hroot, rfl⟩, hmem⟩ := hnt
  simp only [List.mem_range] at hroot
  obtain ⟨hmaj, hmin⟩ := hdist root hroot
  simp only [List.mem_cons, List.mem_singleton] at hmem
  rcases hmem with rfl | rfl | h
  · exact template_normalized_le_third root 4 7 hroot hmaj.1 hmaj.2.1 hmaj.2.2
  · exact template_normalized_le_third root 3 7 hroot hmin.1 hmin.2.1 hmin.2.2
  · cases h

/-- The heart of C2: `best_chord` can never score above 1/3. -/
theorem bestChord_le_third {K : Type} [LinearOrderedField K] (chroma : List K) :
    (bestChord chroma).2 ≤ 1 / 3 := by
  unfold bestChord
  set c := normalizeSum (clampNonneg chroma) with hc
  have hcnn : ∀ a ∈ c, 0 ≤ a :=
    normalizeSum_nonneg _ (clampNonneg_nonneg chroma)
  have hcsum : c.sum ≤ 1 :=
    normalizeSum_sum_le_one _ (clampNonneg_nonneg chroma)
  apply chordStep_fold_le
  · norm_num
  · intro nt hnt
    have hb := chordTemplates_normalized_le_third nt hnt
    calc listDot c (normalizeSum (clampNonneg nt.2)) ≤ 1 / 3 * c.sum :=
          listDot_le_third c _ hcnn hb
      _ ≤ 1 / 3 * 1 := by
          apply mul_le_mul_of_nonneg_left hcsum
          norm_num
      _ = 1 / 3 := mul_one _

/-- C2: for every 12-element chroma input (over exact arithmetic), the
confidence returned by `best_chord` is at most 1/3 — both the clamped chroma
and each 3-one template are normalized to sum 1 before the dot product — so
the confidence is always below the `CONF_MIN = 0.55` threshold of the main
loop and the thresholded label is always the sentinel `"—"`. -/
theorem bestChord_confidence_le_third (chroma : List ℝ) (hlen : chroma.length = 12) :
    (bestChord chroma).2 ≤ 1 / 3 ∧ thresholdLabel (bestChord chroma) = "—" := by
  refine ⟨bestChord_le_third chroma, ?_⟩
  unfold thresholdLabel
  rw [if_pos]
  have h := bestChord_le_third chroma
  linarith

/-- C2 witness at the all-zero real chroma vector. -/
theorem bestChord_confidence_le_third_witness :
    (List.replicate 12 (0 : ℝ)).length = 12 ∧
    ((bestChord (List.replicate 12 (0 : ℝ))).2 ≤ 1 / 3 ∧
      thresholdLabel (bestChord (List.replicate 12 (0 : ℝ))) = "—") :=
  ⟨by simp, bestChord_confidence_le_third (List.replicate 12 0) (by simp)⟩

set_option maxRecDepth 10000 in
/-- C1: the spec claims a self-match scores confidence exactly 1.0; the code
normalizes both the chroma and the template to sum 1, so matching the C-major
template vector against itself returns `("C", 1/3)` — the right label but
confidence 1/3, which the `CONF_MIN = 0.55` threshold then suppresses. -/
theorem bestChord_self_match_third :
    bestChord (majVec ℚ 0) = ("C", 1 / 3) := by
  norm_num [bestChord, chordTemplates, NOTE_NAMES, majVec, minVec, triadVec, chordStep,
    normalizeSum, clampNonneg, listDot, List.range_succ]

/-! ## Hysteresis (src/main.py lines 267-268, 296-301)

State `(last_chord, last_score)` starts at `("—", 0.0)`.  Per cycle, the
result is printed — and the state updated — exactly when
`chord_name != last_chord or (chord_name != "—" and
abs(confidence - last_score) > 0.05)`. -/

def emitStep (st : String × ℚ) (r : String × ℚ) : (String × ℚ) × Bool :=
  if r.1 ≠ st.1 ∨ (r.1 ≠ "—" ∧ |r.2 - st.2| > 1 / 20) then ((r.1, r.2), true)
  else (st, false)

/-- Run the per-cycle emit decision over a list of `(label, confidence)`
cycles, collecting the emitted pairs in order. -/
def runEmits (cycles : List (String × ℚ)) : List (String × ℚ) :=
  (cycles.foldl
    (fun acc r =>
      let res := emitStep acc.1 r
      (res.1, acc.2 ++ if res.2 then [r] else []))
    (("—", 0), [])).2

/-- C9: an emission occurs iff the label differs from the last emitted label,
or the label is unchanged, non-sentinel, and the confidence moved by more
than 0.05 since the last emission; on the concrete drift
0.80 → 0.83 → 0.90 with constant label "C", exactly the first and the
0.90 cycle emit. -/
theorem hysteresis_emissions :
    runEmits [("C", 4 / 5), ("C", 83 / 100), ("C", 9 / 10)] =
      [("C", 4 / 5), ("C", 9 / 10)] ∧
    ∀ (st r : String × ℚ), (emitStep st r).2 = true ↔
      (r.1 ≠ st.1 ∨ (r.1 = st.1 ∧ r.1 ≠ "—" ∧ |r.2 - st.2| > 1 / 20)) := by
  constructor
  · have e1 : emitStep ("—", 0) ("C", 4 / 5) = (("C", 4 / 5), true) := by
      unfold emitStep
      rw [if_pos (Or.inl (by decide))]
    have e2 : emitStep ("C", 4 / 5) ("C", 83 / 100) = (("C", 4 / 5), false) := by
      unfold emitStep
      rw [if_neg]
      rintro (h | ⟨-, h⟩)
      · exact h rfl
      · rw [show (83 : ℚ) / 100 - 4 / 5 = 3 / 100 by norm_num] at h
        rw [abs_of_pos (by norm_num)] at h
        norm_num at h
    have e3 : emitStep ("C", 4 / 5) ("C", 9 / 10) = (("C", 9 / 10), true) := by
      unfold emitStep
      rw [if_pos]
      refine Or.inr ⟨by decide, ?_⟩
      rw [show (9 : ℚ) / 10 - 4 / 5 = 1 / 10 by norm_num, abs_of_pos (by norm_num)]
      norm_num
    simp [runEmits, List.foldl_cons, List.foldl_nil, e1, e2, e3]
  · intro st r
    constructor
    · intro h
      unfold emitStep at h
      split at h
      · next hc =>
        rcases hc with h1 | ⟨h1, h2⟩
        · exact Or.inl h1
        · rcases eq_or_ne r.1 st.1 with he | he
          · exact Or.inr ⟨he, h1, h2⟩
          · exact Or.inl he
      · simp at h
    · intro h
      unfold emitStep
      have hcond : r.1 ≠ st.1 ∨ (r.1 ≠ "—" ∧ |r.2 - st.2| > 1 / 20) := by
        rcases h with h1 | ⟨_, h1, h2⟩
        · exact Or.inl h1
        · exact Or.inr ⟨h1, h2⟩
      rw [if_pos hcond]

/-! ## Chroma smoothing (src/main.py lines 284-287, CHROMA_SMOOTH = 0.7)

`smoothed = CHROMA_SMOOTH * smoothed + (1 - CHROMA_SMOOTH) * chroma`. -/

def smoothChroma {K : Type} [LinearOrderedField K] (prev now : List K) : List K :=
  (prev.zip now).map fun p => 7 / 10 * p.1 + (1 - 7 / 10) * p.2

/-- The chromagram invariant of the spec: element-wise non-negative and
either summing exactly to 1 or all-zero. -/
def chromaOk {K : Type} [LinearOrderedField K] (v : List K) : Prop :=
  (∀ a ∈ v, 0 ≤ a) ∧ (v.sum = 1 ∨ ∀ a ∈ v, a = 0)

/-- C10 counterexample: smoothing an all-zero chromagram with a sum-1
chromagram gives a vector summing to 0.3 — neither sum-1 nor all-zero — so
the invariant is not preserved across the bootstrap from silence. -/
theorem smoothing_breaks_chromaOk :
    chromaOk ([0, 0, 0, 0, 0, 0, 0, 0, 0, 0, 0, 0] : List ℚ) ∧
    chromaOk ([1, 0, 0, 0, 0, 0, 0, 0, 0, 0, 0, 0] : List ℚ) ∧
    ¬ chromaOk (smoothChroma ([0, 0, 0, 0, 0, 0, 0, 0, 0, 0, 0, 0] : List ℚ)
      [1, 0, 0, 0, 0, 0, 0, 0, 0, 0, 0, 0]) := by
  have hsm : smoothChroma ([0, 0, 0, 0, 0, 0, 0, 0, 0, 0, 0, 0] : List ℚ)
      [1, 0, 0, 0, 0, 0, 0, 0, 0, 0, 0, 0] =
      [3 / 10, 0, 0, 0, 0, 0, 0, 0, 0, 0, 0, 0] := by
    norm_num [smoothChroma]
  refine ⟨⟨by norm_num, Or.inr (by norm_num)⟩, ⟨by norm_num, Or.inl (by norm_num)⟩, ?_⟩
  rw [hsm]
  rintro ⟨-, hsum | hzero⟩
  · norm_num at hsum
  · have := hzero (3 / 10) (by simp)
    norm_num at this

theorem smoothChroma_nonneg {K : Type} [LinearOrderedField K] (prev now : List K)
    (hp : ∀ a ∈ prev, 0 ≤ a) (hn : ∀ a ∈ now, 0 ≤ a) :
    ∀ a ∈ smoothChroma prev now, 0 ≤ a := by
  intro a ha
  simp only [smoothChroma, List.mem_map] at ha
  obtain ⟨⟨x, y⟩, hmem, rfl⟩ := ha
  obtain ⟨hx, hy⟩ := List.of_mem_zip hmem
  have h1 := hp x hx
  have h2 := hn y hy
  nlinarith

theorem smoothChroma_sum {K : Type} [LinearOrderedField K] :
    ∀ (prev now : List K), prev.length = now.length →
      (smoothChroma prev now).sum = 7 / 10 * prev.sum + (1 - 7 / 10) * now.sum := by
  intro prev
  induction prev with
  | nil =>
    intro now h
    obtain rfl : now = [] := List.length_eq_zero.mp h.symm
    simp [smoothChroma]
  | cons x xs ih =>
    intro now h
    cases now with
    | nil => simp at h
    | cons y ys =>
      have htail := ih ys (by simpa using h)
      simp only [smoothChroma, List.zip_cons_cons, List.map_cons, List.sum_cons] at htail ⊢
      rw [htail]
      ring

/-! ## chroma_from_audio (src/main.py lines 116-153), over exact reals

The spectral pipeline is embedded over `ℝ` (exact arithmetic): the Hann
window and FFT magnitudes are irrational, so the embedding is necessarily
non-executable; concrete facts about it are proved symbolically. -/

/-- Python `range(0, L - n_fft, hop)` with `hop = n_fft // 4`: the start
offsets of the frame loop (empty when `L ≤ n_fft`). -/
def frameStarts (L nfft : ℕ) : List ℕ :=
  (List.range ((L - nfft + (nfft / 4 - 1)) / (nfft / 4))).map fun i => i * (nfft / 4)

/-- `np.hanning(nfft)[n] = 0.5 - 0.5*cos(2*pi*n/(nfft-1))`. -/
noncomputable def hannWin (nfft n : ℕ) : ℝ :=
  1 / 2 - 1 / 2 * Real.cos (2 * Real.pi * (n : ℝ) / ((nfft : ℝ) - 1))

/-- One Hann-windowed frame of the mean-removed block,
`(y - np.mean(y))[start:start+nfft] * win`, as a function of the in-frame
index `n`. -/
noncomputable def frameAt (y : List ℝ) (nfft start n : ℕ) : ℝ :=
  hannWin nfft n * (y.getD (start + n) 0 - y.sum / (y.length : ℝ))

/-- `np.abs(np.fft.rfft(f))[k]`: the magnitude of
`∑ n < nfft, f n · exp(-2πi·k·n/nfft)`. -/
noncomputable def dftMag (nfft : ℕ) (f : ℕ → ℝ) (k : ℕ) : ℝ :=
  Complex.abs (∑ n ∈ Finset.range nfft,
    (f n : ℂ) * Complex.exp ((-2 * Real.pi * (k : ℝ) * (n : ℝ) / (nfft : ℝ) : ℝ) * Complex.I))

/-- `np.fft.rfftfreq(nfft, 1/sr)[k] = k * sr / nfft`. -/
noncomputable def binFreq (sr nfft k : ℕ) : ℝ :=
  (k : ℝ) * (sr : ℝ) / (nfft : ℝ)

/-- `int(round(69.0 + 12.0*math.log2(freq/440.0))) % 12`.  Python rounds
half-to-even while `round` rounds half up; pitches are exactly half-integral
at none of the rFFT bin frequencies of this pipeline, so the policies agree
on every reachable input. -/
noncomputable def pitchClassOf (freq : ℝ) : ℕ :=
  ((round (69 + 12 * Real.logb 2 (freq / 440)) : ℤ) % 12).toNat

/-- The chroma accumulator at pitch class `pc` after the frame and bin
loops: a bin contributes its magnitude when `freq ≥ 20`, `freq ≤ sr/2` and
the magnitude is at least the `1e-10` floor. -/
noncomputable def chromaAcc (sr nfft : ℕ) (y : List ℝ) (pc : ℕ) : ℝ :=
  ((frameStarts y.length nfft).map fun start =>
    ∑ k ∈ Finset.range (nfft / 2 + 1),
      if 20 ≤ binFreq sr nfft k ∧ binFreq sr nfft k ≤ (sr : ℝ) / 2 ∧
          1 / 10 ^ 10 ≤ dftMag nfft (frameAt y nfft start) k ∧
          pitchClassOf (binFreq sr nfft k) = pc
      then dftMag nfft (frameAt y nfft start) k else 0).sum

/-- `chroma_acc / frames` when at least one frame was processed. -/
noncomputable def chromaAvg (sr nfft : ℕ) (y : List ℝ) (pc : ℕ) : ℝ :=
  if 0 < (frameStarts y.length nfft).length then
    chromaAcc sr nfft y pc / ((frameStarts y.length nfft).length : ℝ)
  else chromaAcc sr nfft y pc

/-- `total = np.sum(chroma_acc)`. -/
noncomputable def chromaTotal (sr nfft : ℕ) (y : List ℝ) : ℝ :=
  ∑ pc ∈ Finset.range 12, chromaAvg sr nfft y pc

/-- `chroma_from_audio` (lines 116-153): all-zero sentinel on short input,
frame averaging, then normalization to sum 1 when the total is positive. -/
noncomputable def chroma_from_audio (sr nfft : ℕ) (y : List ℝ) : List ℝ :=
  if y.length < nfft then List.replicate 12 0
  else if 0 < chromaTotal sr nfft y then
    (List.range 12).map fun pc => chromaAvg sr nfft y pc / chromaTotal sr nfft y
  else (List.range 12).map (chromaAvg sr nfft y)

/-! ### Basic positivity facts -/

theorem chromaAcc_nonneg (sr nfft : ℕ) (y : List ℝ) (pc : ℕ) :
    0 ≤ chromaAcc sr nfft y pc := by
  unfold chromaAcc
  apply List.sum_nonneg
  intro a ha
  simp only [List.mem_map] at ha
  obtain ⟨start, _, rfl⟩ := ha
  apply Finset.sum_nonneg
  intro k _
  split
  · exact AbsoluteValue.nonneg Complex.abs _
  · exact le_refl 0

theorem chromaAvg_nonneg (sr nfft : ℕ) (y : List ℝ) (pc : ℕ) :
    0 ≤ chromaAvg sr nfft y pc := by
  unfold chromaAvg
  split
  · exact div_nonneg (chromaAcc_nonneg sr nfft y pc) (Nat.cast_nonneg _)
  · exact chromaAcc_nonneg sr nfft y pc

theorem chromaTotal_nonneg (sr nfft : ℕ) (y : List ℝ) :
    0 ≤ chromaTotal sr nfft y :=
  Finset.sum_nonneg fun pc _ => chromaAvg_nonneg sr nfft y pc

/-- The output of the extractor is non-negative and sums to 1 or is
all-zero. -/
theorem chroma_from_audio_ok (sr nfft : ℕ) (y : List ℝ) :
    chromaOk (chroma_from_audio sr nfft y) := by
  unfold chroma_from_audio
  split
  · exact ⟨by simp, Or.inr (by simp)⟩
  · split
    · next htot =>
      constructor
      · intro a ha
        simp only [List.mem_map] at ha
        obtain ⟨pc, _, rfl⟩ := ha
        exact div_nonneg (chromaAvg_nonneg sr nfft y pc) (le_of_lt htot)
      · left
        rw [← sum_map_range (fun pc => chromaAvg sr nfft y pc / chromaTotal sr nfft y) 12]
        rw [← Finset.sum_div]
        exact div_self (ne_of_gt htot)
    · next htot =>
      have hzero : ∀ pc ∈ Finset.range 12, chromaAvg sr nfft y pc = 0 := by
        have h0 : chromaTotal sr nfft y = 0 :=
          le_antisymm (not_lt.mp htot) (chromaTotal_nonneg sr nfft y)
        intro pc hpc
        have := (Finset.sum_eq_zero_iff_of_nonneg
          (fun q _ => chromaAvg_nonneg sr nfft y q)).mp h0
        exact this pc hpc
      constructor
      · intro a ha
        simp only [List.mem_map] at ha
        obtain ⟨pc, hpc, rfl⟩ := ha
        rw [hzero pc (by simpa using hpc)]
      · right
        intro a ha
        simp only [List.mem_map] at ha
        obtain ⟨pc, hpc, rfl⟩ := ha
        exact hzero pc (by simpa using hpc)

/-- C7: the frame loop `range(0, len(y) - n_fft, hop)` stops one hop early:
with `n_fft = 2048` and `hop = 512`, a 2048-sample block gets 0 frames (the
all-zero sentinel despite passing the insufficient-data guard) and a
2560-sample block gets 1 frame, where the claimed formula
`floor((L-2048)/512) + 1` gives 1 and 2. -/
theorem frameStarts_off_by_one :
    (frameStarts 2048 2048).length = 0 ∧ (frameStarts 2560 2048).length = 1 ∧
    chroma_from_audio 22050 2048 (List.replicate 2048 (1 : ℝ)) = List.replicate 12 0 := by
  refine ⟨by decide, by decide, ?_⟩
  have hempty : frameStarts 2048 2048 = [] := by decide
  have hacc : ∀ pc, chromaAcc 22050 2048 (List.replicate 2048 (1 : ℝ)) pc = 0 := by
    intro pc
    unfold chromaAcc
    rw [List.length_replicate, hempty]
    simp only [List.map_nil, List.sum_nil]
  have havg : ∀ pc, chromaAvg 22050 2048 (List.replicate 2048 (1 : ℝ)) pc = 0 := by
    intro pc
    unfold chromaAvg
    rw [List.length_replicate, hempty, hacc]
    rw [if_neg (by simp)]
  have htot : chromaTotal 22050 2048 (List.replicate 2048 (1 : ℝ)) = 0 := by
    unfold chromaTotal
    exact Finset.sum_eq_zero fun pc _ => havg pc
  unfold chroma_from_audio
  rw [if_neg (by rw [List.length_replicate]; exact lt_irrefl 2048),
    if_neg (by rw [htot]; exact lt_irrefl 0)]
  rw [show (List.range 12).map (chromaAvg 22050 2048 (List.replicate 2048 (1 : ℝ))) =
      (List.range 12).map (fun _ => (0 : ℝ)) from List.map_congr_left fun pc _ => havg pc]
  rw [List.map_const', List.length_range]

/-- C10 (amended): every chromagram the extractor produces is element-wise
non-negative and sums to 1 or is all-zero; smoothing preserves
non-negativity, preserves the sum-1 property when both arguments sum to 1,
and preserves all-zero when both arguments are all-zero — the mixed case is
not preserved (see the counterexample). -/
theorem chroma_invariant_amended (sr nfft : ℕ) (y : List ℝ) (prev now : List ℝ)
    (hlen : prev.length = now.length)
    (hp : ∀ a ∈ prev, 0 ≤ a) (hn : ∀ a ∈ now, 0 ≤ a) :
    chromaOk (chroma_from_audio sr nfft y) ∧
    (∀ a ∈ smoothChroma prev now, 0 ≤ a) ∧
    (prev.sum = 1 → now.sum = 1 → (smoothChroma prev now).sum = 1) ∧
    ((∀ a ∈ prev, a = 0) → (∀ a ∈ now, a = 0) → ∀ a ∈ smoothChroma prev now, a = 0) := by
  refine ⟨chroma_from_audio_ok sr nfft y, smoothChroma_nonneg prev now hp hn, ?_, ?_⟩
  · intro h1 h2
    rw [smoothChroma_sum prev now hlen, h1, h2]
    norm_num
  · intro h1 h2 a ha
    simp only [smoothChroma, List.mem_map] at ha
    obtain ⟨⟨u, v⟩, hmem, rfl⟩ := ha
    obtain ⟨hu, hv⟩ := List.of_mem_zip hmem
    rw [h1 u hu, h2 v hv]
    ring

/-- C10 witness: the extractor invariant at the empty block and smoothing of
`[1]` with `[1]`. -/
theorem chroma_invariant_amended_witness :
    (∀ a ∈ ([1] : List ℝ), 0 ≤ a) ∧
    (chromaOk (chroma_from_audio 22050 2048 []) ∧
      (∀ a ∈ smoothChroma ([1] : List ℝ) [1], 0 ≤ a) ∧
      (([1] : List ℝ).sum = 1 → ([1] : List ℝ).sum = 1 →
        (smoothChroma ([1] : List ℝ) [1]).sum = 1) ∧
      ((∀ a ∈ ([1] : List ℝ), a = 0) → (∀ a ∈ ([1] : List ℝ), a = 0) →
        ∀ a ∈ smoothChroma ([1] : List ℝ) [1], a = 0)) :=
  ⟨by norm_num,
    chroma_invariant_amended 22050 2048 [] [1] [1] rfl (by norm_num) (by norm_num)⟩

/-! ### Amplitude scaling (C8) -/

theorem sum_map_mul_left (c : ℝ) (l : List ℝ) :
    (l.map fun v => c * v).sum = c * l.sum := by
  induction l with
  | nil => simp
  | cons x xs ih => simp [ih, mul_add]

theorem getD_map_mul (c : ℝ) (l : List ℝ) (n : ℕ) :
    (l.map fun v => c * v).getD n 0 = c * l.getD n 0 := by
  rw [List.getD_eq_getElem?_getD, List.getD_eq_getElem?_getD, List.getElem?_map]
  cases h : l[n]? <;> simp

theorem frameAt_map_mul (y : List ℝ) (c : ℝ) (nfft start n : ℕ) :
    frameAt (y.map fun v => c * v) nfft start n = c * frameAt y nfft start n := by
  unfold frameAt
  rw [getD_map_mul, sum_map_mul_left, List.length_map]
  ring

theorem dftMag_mul (nfft k : ℕ) (f : ℕ → ℝ) (c : ℝ) (hc : 0 ≤ c) :
    dftMag nfft (fun n => c * f n) k = c * dftMag nfft f k := by
  unfold dftMag
  have h : (∑ n ∈ Finset.range nfft, ((c * f n : ℝ) : ℂ) *
        Complex.exp ((-2 * Real.pi * (k : ℝ) * (n : ℝ) / (nfft : ℝ) : ℝ) * Complex.I)) =
      (c : ℂ) * ∑ n ∈ Finset.range nfft, ((f n : ℝ) : ℂ) *
        Complex.exp ((-2 * Real.pi * (k : ℝ) * (n : ℝ) / (nfft : ℝ) : ℝ) * Complex.I) := by
    rw [Finset.mul_sum]
    refine Finset.sum_congr rfl fun n _ => ?_
    push_cast
    ring
  rw [h, map_mul, Complex.abs_ofReal, abs_of_nonneg hc]

theorem chromaAcc_map_mul (sr nfft : ℕ) (y : List ℝ) (c : ℝ) (hc : 0 < c)
    (hmag : ∀ start ∈ frameStarts y.length nfft, ∀ k ∈ Finset.range (nfft / 2 + 1),
      ((1 : ℝ) / 10 ^ 10 ≤ dftMag nfft (frameAt y nfft start) k ↔
        1 / 10 ^ 10 ≤ dftMag nfft (frameAt (y.map fun v => c * v) nfft start) k))
    (pc : ℕ) :
    chromaAcc sr nfft (y.map fun v => c * v) pc = c * chromaAcc sr nfft y pc := by
  unfold chromaAcc
  rw [List.length_map, ← sum_map_mul_left, List.map_map]
  apply congrArg List.sum
  apply List.map_congr_left
  intro start hstart
  simp only [Function.comp]
  have hframe : frameAt (y.map fun v => c * v) nfft start =
      fun n => c * frameAt y nfft start n :=
    funext fun n => frameAt_map_mul y c nfft start n
  rw [hframe, Finset.mul_sum]
  refine Finset.sum_congr rfl fun k hk => ?_
  rw [dftMag_mul nfft k _ c (le_of_lt hc)]
  have hm := hmag start hstart k hk
  rw [hframe, dftMag_mul nfft k _ c (le_of_lt hc)] at hm
  have hiff : (20 ≤ binFreq sr nfft k ∧ binFreq sr nfft k ≤ (sr : ℝ) / 2 ∧
      1 / 10 ^ 10 ≤ c * dftMag nfft (frameAt y nfft start) k ∧
      pitchClassOf (binFreq sr nfft k) = pc) ↔
      (20 ≤ binFreq sr nfft k ∧ binFreq sr nfft k ≤ (sr : ℝ) / 2 ∧
      1 / 10 ^ 10 ≤ dftMag nfft (frameAt y nfft start) k ∧
      pitchClassOf (binFreq sr nfft k) = pc) := by
    constructor
    · rintro ⟨h1, h2, h3, h4⟩
      exact ⟨h1, h2, hm.mpr h3, h4⟩
    · rintro ⟨h1, h2, h3, h4⟩
      exact ⟨h1, h2, hm.mp h3, h4⟩
  rw [if_congr hiff rfl rfl, mul_ite, mul_zero]

/-- C8 (amended): scaling every sample by a positive constant `c` leaves the
chromagram unchanged provided the scaling does not change which FFT bins pass
the `1e-10` magnitude floor; without that proviso the invariance fails (see
the counterexample). -/
theorem chroma_from_audio_scale (sr nfft : ℕ) (y : List ℝ) (c : ℝ) (hc : 0 < c)
    (hmag : ∀ start ∈ frameStarts y.length nfft, ∀ k ∈ Finset.range (nfft / 2 + 1),
      ((1 : ℝ) / 10 ^ 10 ≤ dftMag nfft (frameAt y nfft start) k ↔
        1 / 10 ^ 10 ≤ dftMag nfft (frameAt (y.map fun v => c * v) nfft start) k)) :
    chroma_from_audio sr nfft (y.map fun v => c * v) = chroma_from_audio sr nfft y := by
  have hacc := chromaAcc_map_mul sr nfft y c hc hmag
  have havg : ∀ pc, chromaAvg sr nfft (y.map fun v => c * v) pc =
      c * chromaAvg sr nfft y pc := by
    intro pc
    unfold chromaAvg
    rw [List.length_map, hacc]
    split
    · rw [mul_div_assoc]
    · rfl
  have htot : chromaTotal sr nfft (y.map fun v => c * v) =
      c * chromaTotal sr nfft y := by
    unfold chromaTotal
    rw [Finset.mul_sum]
    exact Finset.sum_congr rfl fun pc _ => havg pc
  unfold chroma_from_audio
  rw [List.length_map, htot]
  by_cases hshort : y.length < nfft
  · rw [if_pos hshort, if_pos hshort]
  · rw [if_neg hshort, if_neg hshort]
    by_cases hpos : 0 < chromaTotal sr nfft y
    · rw [if_pos (mul_pos hc hpos), if_pos hpos]
      refine List.map_congr_left fun pc _ => ?_
      rw [havg pc, mul_div_mul_left _ _ (ne_of_gt hc)]
    · have h0 : chromaTotal sr nfft y = 0 :=
        le_antisymm (not_lt.mp hpos) (chromaTotal_nonneg sr nfft y)
      rw [if_neg (by rw [h0, mul_zero]; exact lt_irrefl 0), if_neg hpos]
      have hz : ∀ pc ∈ Finset.range 12, chromaAvg sr nfft y pc = 0 :=
        (Finset.sum_eq_zero_iff_of_nonneg fun q _ => chromaAvg_nonneg sr nfft y q).mp h0
      refine List.map_congr_left fun pc hpc => ?_
      rw [havg pc, hz pc (by simpa using hpc), mul_zero]

/-! ### C8 counterexample

`cexY` divides the Hann window out at sample 1 and cancels the mean with its
final sample, so the single windowed mean-removed frame is exactly the unit
impulse at index 1, whose rFFT has magnitude 1 in every bin.  Scaling `cexY`
by `1e-12` drops every bin magnitude to `1e-12 < 1e-10`, so all bins are
gated away and the chromagram collapses to all-zero, while the unscaled
chromagram is normalized to sum 1. -/

noncomputable def cexY : List ℝ :=
  0 :: (hannWin 2048 1)⁻¹ :: (List.replicate 2046 0 ++ [-(hannWin 2048 1)⁻¹])

noncomputable def cexScale : ℝ := 1 / 10 ^ 12

theorem hannWin_one_pos : 0 < hannWin 2048 1 := by
  unfold hannWin
  have hcast : 2 * Real.pi * ((1 : ℕ) : ℝ) / (((2048 : ℕ) : ℝ) - 1) = 2 * Real.pi / 2047 := by
    push_cast
    norm_num
  rw [hcast]
  have hpi := Real.pi_pos
  have hlt : 2 * Real.pi / 2047 < 2 * Real.pi := by
    rw [div_lt_iff₀ (by norm_num : (0 : ℝ) < 2047)]
    nlinarith
  have hgt : -(2 * Real.pi) < 2 * Real.pi / 2047 := by
    have h0 : 0 < 2 * Real.pi / 2047 := by positivity
    linarith
  have hne : 2 * Real.pi / 2047 ≠ 0 := by positivity
  have hcos : Real.cos (2 * Real.pi / 2047) < 1 := by
    refine lt_of_le_of_ne (Real.cos_le_one _) fun h => hne ?_
    exact (Real.cos_eq_one_iff_of_lt_of_lt hgt hlt).mp h
  linarith

theorem cexY_length : cexY.length = 2049 := by
  simp only [cexY, List.length_cons, List.length_append, List.length_replicate,
    List.length_nil]

theorem cexY_sum : cexY.sum = 0 := by
  simp only [cexY, List.sum_cons, List.sum_append, List.sum_replicate, smul_zero,
    List.sum_nil]
  ring

theorem cexY_getD : ∀ n, n < 2048 → cexY.getD n 0 = if n = 1 then (hannWin 2048 1)⁻¹ else 0 := by
  intro n hn
  match n with
  | 0 => rfl
  | 1 => rfl
  | (m + 2) =>
    simp only [cexY, List.getD_cons_succ]
    rw [if_neg (by omega)]
    have hm : m < 2046 := by omega
    rw [List.getD_eq_getElem?_getD,
      List.getElem?_append_left (by rw [List.length_replicate]; exact hm),
      List.getElem?_replicate_of_lt hm]
    rfl

theorem cexY_frame : ∀ n, n < 2048 → frameAt cexY 2048 0 n = if n = 1 then 1 else 0 := by
  intro n hn
  unfold frameAt
  rw [Nat.zero_add, cexY_getD n hn, cexY_sum, zero_div, sub_zero]
  by_cases h : n = 1
  · subst h
    rw [if_pos rfl, if_pos rfl]
    exact mul_inv_cancel₀ (ne_of_gt hannWin_one_pos)
  · rw [if_neg h, if_neg h, mul_zero]

theorem cexY_dftMag : ∀ k, dftMag 2048 (frameAt cexY 2048 0) k = 1 := by
  intro k
  unfold dftMag
  refine (congrArg Complex.abs
    (Finset.sum_eq_single_of_mem 1 (Finset.mem_range.mpr (by norm_num)) ?_)).trans ?_
  · intro b hb hbne
    rw [cexY_frame b (Finset.mem_range.mp hb), if_neg hbne]
    simp
  · rw [cexY_frame 1 (by norm_num), if_pos rfl]
    simp only [Complex.ofReal_one, one_mul]
    exact Complex.abs_exp_ofReal_mul_I _

/-- C8 witness: the invariance instance at `c = 2` on the concrete block
`cexY` — its single frame has magnitude 1 in every bin (2 after scaling), so
every bin stays above the `1e-10` floor and the magnitude-floor proviso is
exercised non-vacuously on a processed frame. -/
theorem chroma_from_audio_scale_witness :
    (0 : ℝ) < 2 ∧
    chroma_from_audio 22050 2048 (cexY.map fun v => (2 : ℝ) * v) =
      chroma_from_audio 22050 2048 cexY :=
  ⟨by norm_num,
    chroma_from_audio_scale 22050 2048 cexY 2 (by norm_num)
      (by
        intro start hstart k _
        rw [cexY_length, show frameStarts 2049 2048 = [0] from by decide] at hstart
        have h0 : start = 0 := by simpa using hstart
        subst h0
        rw [show frameAt (cexY.map fun v => (2 : ℝ) * v) 2048 0 =
            fun n => (2 : ℝ) * frameAt cexY 2048 0 n from
            funext fun n => frameAt_map_mul cexY 2 2048 0 n,
          dftMag_mul 2048 k _ 2 (by norm_num), cexY_dftMag k, mul_one]
        norm_num)⟩

theorem pitchClassOf_lt (freq : ℝ) : pitchClassOf freq < 12 := by
  unfold pitchClassOf
  have h1 : 0 ≤ (round (69 + 12 * Real.logb 2 (freq / 440)) : ℤ) % 12 :=
    Int.emod_nonneg _ (by norm_num)
  have h2 : (round (69 + 12 * Real.logb 2 (freq / 440)) : ℤ) % 12 < 12 :=
    Int.emod_lt_of_pos _ (by norm_num)
  omega

theorem cexY_chroma_sum : (chroma_from_audio 22050 2048 cexY).sum = 1 := by
  have hstarts : frameStarts 2049 2048 = [0] := by decide
  have hposacc :
      1 ≤ chromaAcc 22050 2048 cexY (pitchClassOf (binFreq 22050 2048 2)) := by
    unfold chromaAcc
    rw [cexY_length, hstarts]
    simp only [List.map_cons, List.map_nil, List.sum_cons, List.sum_nil, add_zero]
    refine le_trans ?_ (Finset.single_le_sum ?_
      (show (2 : ℕ) ∈ Finset.range (2048 / 2 + 1) by norm_num))
    · rw [cexY_dftMag 2]
      split
      · exact le_refl 1
      · next hncond =>
        exfalso
        apply hncond
        refine ⟨?_, ?_, by norm_num, rfl⟩
        · unfold binFreq
          push_cast
          norm_num
        · unfold binFreq
          push_cast
          norm_num
    · intro i _
      split
      · exact AbsoluteValue.nonneg Complex.abs _
      · exact le_refl 0
  have havg_eq : ∀ pc, chromaAvg 22050 2048 cexY pc = chromaAcc 22050 2048 cexY pc := by
    intro pc
    unfold chromaAvg
    rw [cexY_length, hstarts]
    norm_num
  have htotpos : 0 < chromaTotal 22050 2048 cexY := by
    have h1 : 1 ≤ chromaAvg 22050 2048 cexY (pitchClassOf (binFreq 22050 2048 2)) := by
      rw [havg_eq]; exact hposacc
    have hmem : pitchClassOf (binFreq 22050 2048 2) ∈ Finset.range 12 :=
      Finset.mem_range.mpr (pitchClassOf_lt _)
    have hle := Finset.single_le_sum
      (f := fun pc => chromaAvg 22050 2048 cexY pc)
      (fun i _ => chromaAvg_nonneg 22050 2048 cexY i) hmem
    unfold chromaTotal
    linarith
  unfold chroma_from_audio
  rw [if_neg (by rw [cexY_length]; norm_num), if_pos htotpos]
  rw [← sum_map_range
    (fun pc => chromaAvg 22050 2048 cexY pc / chromaTotal 22050 2048 cexY) 12,
    ← Finset.sum_div]
  have hTot : (∑ pc ∈ Finset.range 12, chromaAvg 22050 2048 cexY pc) =
      chromaTotal 22050 2048 cexY := rfl
  rw [hTot]
  exact div_self (ne_of_gt htotpos)

theorem cexY_scaled_chroma_sum :
    (chroma_from_audio 22050 2048 (cexY.map fun v => cexScale * v)).sum = 0 := by
  have hstarts : frameStarts 2049 2048 = [0] := by decide
  have hacc0 : ∀ pc, chromaAcc 22050 2048 (cexY.map fun v => cexScale * v) pc = 0 := by
    intro pc
    unfold chromaAcc
    rw [List.length_map, cexY_length, hstarts]
    simp only [List.map_cons, List.map_nil, List.sum_cons, List.sum_nil, add_zero]
    refine Finset.sum_eq_zero fun k _ => ?_
    apply if_neg
    rintro ⟨-, -, hmagle, -⟩
    rw [show frameAt (cexY.map fun v => cexScale * v) 2048 0 =
        fun n => cexScale * frameAt cexY 2048 0 n from
        funext fun n => frameAt_map_mul cexY cexScale 2048 0 n] at hmagle
    rw [dftMag_mul 2048 k _ cexScale (by unfold cexScale; norm_num)] at hmagle
    rw [cexY_dftMag k, mul_one] at hmagle
    unfold cexScale at hmagle
    norm_num at hmagle
  have havg0 : ∀ pc, chromaAvg 22050 2048 (cexY.map fun v => cexScale * v) pc = 0 := by
    intro pc
    unfold chromaAvg
    rw [List.length_map, cexY_length, hstarts, hacc0]
    split <;> simp
  have htot0 : chromaTotal 22050 2048 (cexY.map fun v => cexScale * v) = 0 := by
    unfold chromaTotal
    exact Finset.sum_eq_zero fun pc _ => havg0 pc
  unfold chroma_from_audio
  rw [List.length_map, cexY_length]
  rw [if_neg (by norm_num), if_neg (by rw [htot0]; exact lt_irrefl 0)]
  rw [← sum_map_range (chromaAvg 22050 2048 (cexY.map fun v => cexScale * v)) 12]
  exact Finset.sum_eq_zero fun pc _ => havg0 pc

/-- C8 counterexample: for the concrete block `cexY` and the positive scale
`1e-12`, the chromagram of the scaled block (all-zero, since every bin falls
below the `1e-10` magnitude floor) differs from the chromagram of the
original block (which sums to 1). -/
theorem chroma_scale_invariance_fails :
    0 < cexScale ∧
    chroma_from_audio 22050 2048 (cexY.map fun v => cexScale * v) ≠
      chroma_from_audio 22050 2048 cexY := by
  refine ⟨by unfold cexScale; norm_num, fun heq => ?_⟩
  have h0 := cexY_scaled_chroma_sum
  rw [heq, cexY_chroma_sum] at h0
  norm_num at h0

end QCD
